import Mathlib

/-
Verification of the tf-idf repository (JohnLucid1/tf-idf).

Shallow embedding of the core: the tokenizer `split_into_words` and the
term-frequency indexer `index_data` (src/lexer/lexing.rs), the document
builder `tokenize_data`, the cache/search driver `run` and the query
engine `search_query` (src/main.rs).

Modelling conventions:
 * `f32` scores are embedded as the type `F32` below: an exact rational
   (`F32.fin`) or one of the IEEE special values `inf`, `negInf`, `nan`.
   Rounding of `f32` arithmetic is replaced by exact rational arithmetic.
 * `HashMap` values (`TermFreq = HashMap<String, f32>` and
   `DocFreq = HashMap<PathBuf, TermFreq>`) are embedded as association
   lists; the construction keeps keys unique, and only lookup behaviour
   matters, so the (hash-dependent) iteration order of the Rust map is
   irrelevant to every claim.
 * Strings and `PathBuf`s are Lean `String`s; document text is `List Char`
   (Rust `to_lowercase` is embedded character-wise, which agrees with the
   ASCII delimiters in play).
 * `SystemTime` is a natural number of seconds; `Duration` comparison in
   `run` is at whole-second granularity in the model.
 * Panics (`unwrap`, `expect`) are `Option.none`.
-/

namespace TfIdf

/-- Embedding of Rust `f32`: an exact rational, `+inf`, `-inf`, or `NaN`. -/
inductive F32 where
  | fin (q : ℚ)
  | inf
  | negInf
  | nan
deriving DecidableEq

instance : Inhabited F32 := ⟨F32.fin 0⟩

/-- IEEE addition on the embedded `f32` values (exact on finite values). -/
def F32.add : F32 → F32 → F32
  | .nan, _ => .nan
  | _, .nan => .nan
  | .inf, .negInf => .nan
  | .negInf, .inf => .nan
  | .inf, _ => .inf
  | _, .inf => .inf
  | .negInf, _ => .negInf
  | _, .negInf => .negInf
  | .fin a, .fin b => .fin (a + b)

/-- Is this value IEEE NaN? -/
def F32.isNan : F32 → Bool
  | .nan => true
  | _ => false

/-- Strict `<` on embedded `f32` values; any comparison with NaN is `false`
(NaN is incomparable, which is what makes `partial_cmp` return `None`). -/
def F32.blt : F32 → F32 → Bool
  | .nan, _ => false
  | _, .nan => false
  | .negInf, .negInf => false
  | .negInf, _ => true
  | _, .negInf => false
  | .inf, _ => false
  | .fin _, .inf => true
  | .fin a, .fin b => decide (a < b)

/-- Embedding of the Rust expression `1.0 / full_length` where
`full_length = content.len() as f32`: IEEE `1.0 / 0.0 = +inf`, otherwise
the exact rational `1 / n`. -/
def oneOverLen (n : ℕ) : F32 :=
  if n = 0 then F32.inf else F32.fin (1 / (n : ℚ))

/-- A term: the Rust code tokenizes into `String`s; document text is
`List Char`, so a term is a `List Char`. -/
abbrev Term := List Char

/-- src/lexer/lexing.rs: `pub type TermFreq = HashMap<String, f32>`,
embedded as an association list with unique keys. -/
abbrev TermFreq := List (Term × F32)

/-- A file path (Rust `PathBuf`). -/
abbrev PathBuf := String

/-- src/lexer/lexing.rs: `pub type DocFreq = HashMap<PathBuf, TermFreq>`. -/
abbrev DocFreq := List (PathBuf × TermFreq)

/-- First-match lookup in a `TermFreq` (Rust `HashMap::get` on a map whose
keys are kept unique by construction). -/
def tfLookup (t : Term) : TermFreq → Option F32
  | [] => none
  | (k, v) :: rest => if k = t then some v else tfLookup t rest

/-- First-match lookup in a `DocFreq` (Rust `HashMap::get`). -/
def dfLookup (p : PathBuf) : DocFreq → Option TermFreq
  | [] => none
  | (k, v) :: rest => if k = p then some v else dfLookup p rest

/-- Rust `*data.get_mut(&term).unwrap() += v`: add `v` to the value stored
at the first entry with key `t` (a no-op when the key is absent, but the
code only calls it after `contains_key` succeeded). -/
def addToKey (t : Term) (v : F32) : TermFreq → TermFreq
  | [] => []
  | (k, w) :: rest =>
      if k = t then (k, F32.add w v) :: rest else (k, w) :: addToKey t v rest

/-- The loop body of `index_data` (src/lexer/lexing.rs, lines 99-112):
`n` is `full_length = content.len()` computed before the loop; for each
term, if present add `1.0 / full_length`, otherwise insert `1.0`. -/
def indexLoop (n : ℕ) : List Term → TermFreq → TermFreq
  | [], data => data
  | term :: rest, data =>
      if (tfLookup term data).isSome then
        indexLoop n rest (addToKey term (oneOverLen n) data)
      else
        indexLoop n rest ((term, F32.fin 1) :: data)

/-- src/lexer/lexing.rs `index_data`: build a `TermFreq` from a token
sequence. -/
def index_data (content : List Term) : TermFreq :=
  indexLoop content.length content []

/-- The delimiter set of `split_into_words` (src/lexer/lexing.rs line 139):
single quote, period, close paren, open paren, backtick, comma, double
quote, space, newline. -/
def delimiters : List Char :=
  [Char.ofNat 39, '.', ')', '(', Char.ofNat 96, ',', Char.ofNat 34, ' ', Char.ofNat 10]

/-- Is `c` one of the delimiter characters? -/
def isDelim (c : Char) : Bool := delimiters.contains c

/-- Rust `str::split` over a character predicate: cut the input at every
delimiter, keeping empty fragments (the subsequent `filter` drops them). -/
def splitAux : List Char → List Char → List (List Char)
  | [], cur => [cur]
  | c :: cs, cur =>
      if isDelim c then cur :: splitAux cs [] else splitAux cs (cur ++ [c])

/-- src/lexer/lexing.rs `split_into_words`: lowercase the whole input,
split on the delimiters, and drop empty fragments. -/
def split_into_words (input : List Char) : List (List Char) :=
  (splitAux (input.map Char.toLower) []).filter (fun w => !w.isEmpty)

/-- src/lexer/lexing.rs `Document`: per-document index, path, and the
timestamp (seconds) at which the entry was produced. -/
structure Document where
  data : DocFreq
  path : PathBuf
  last_modified : ℕ
deriving DecidableEq

/-- src/lexer/lexing.rs `Idf`: one scored result of the query engine.
In Rust its `PartialEq` compares ONLY `path`; the model encodes that
explicitly in `containsPath` below. -/
structure Idf where
  path : PathBuf
  tf : F32
deriving DecidableEq

/-- Rust `idf_buff.contains(&idf)` with `Idf`'s path-only `PartialEq`:
does the buffer already hold an entry with this path? -/
def containsPath : List Idf → PathBuf → Bool
  | [], _ => false
  | e :: es, p => if e.path = p then true else containsPath es p

/-- The raw score of one document for the query (src/main.rs lines
183-188): `doc.data.get(&doc.path).and_then(|m| m.get(&query))`, with
`0.0` as the default. -/
def rawScore (doc : Document) (query : Term) : F32 :=
  match dfLookup doc.path doc.data with
  | some m =>
      match tfLookup query m with
      | some v => v
      | none => F32.fin 0
  | none => F32.fin 0

/-- The collect loop of `search_query` (src/main.rs lines 182-198): one
`Idf` per document, pushed only if no entry with the same path exists. -/
def collectLoop (query : Term) : List Document → List Idf → List Idf
  | [], buff => buff
  | doc :: rest, buff =>
      if containsPath buff doc.path then collectLoop query rest buff
      else collectLoop query rest (buff ++ [Idf.mk doc.path (rawScore doc query)])

/-- Stable insertion for the descending-by-`tf` sort: the new element goes
after every existing element that is not strictly below it, so equal keys
keep their original relative order — the behaviour of Rust's stable
`sort_by`. -/
def insertIdf (x : Idf) : List Idf → List Idf
  | [] => [x]
  | e :: es => if F32.blt e.tf x.tf then x :: e :: es else e :: insertIdf x es

/-- A stable sort, descending by `tf`; extensionally equal to Rust's
stable `slice::sort_by` with the comparator
`b.tf.partial_cmp(&a.tf)` whenever that comparator is total (no NaN). -/
def sortByTfDesc (l : List Idf) : List Idf :=
  l.foldl (fun acc x => insertIdf x acc) []

/-- src/main.rs `search_query` (lines 179-208): collect one raw score per
document path, then sort descending by score. The comparator
`b.tf.partial_cmp(&a.tf).expect(..)` panics on any comparison involving a
NaN key; Rust's stable sort compares every element of a slice of length
at least 2 at least once, so the sort panics exactly when the buffer has
length at least 2 and contains a NaN score — modelled as `none`. -/
def search_query (docs : List Document) (query : Term) : Option (List Idf) :=
  let buff := collectLoop query docs []
  if 2 ≤ buff.length ∧ buff.any (fun e => e.tf.isNan) then none
  else some (sortByTfDesc buff)

/-- src/main.rs `WEEK_IN_SECONDS`. -/
def WEEK_IN_SECONDS : ℕ := 604800

/-- src/main.rs `tokenize_data` (lines 126-143): one `Document` per path;
`reader` is the external `read_from_pdf` collaborator, `now` the value of
`SystemTime::now()`. `DocFreq::single` makes the one-entry map keyed by
the document's own path. -/
def tokenize_data (now : ℕ) (reader : PathBuf → List Char) (paths : List PathBuf) :
    List Document :=
  paths.map fun path =>
    { data := [(path, index_data (split_into_words (reader path)))]
      path := path
      last_modified := now }

/-- The observable outcome of `run`: the document sequence handed to
`search_query` (the sequence load_or_build "returns"), and the argument
pair `(path, data)` of the `serialize_and_save` call, if one is made.
`serialize_and_save` (src/lexer/lib.rs lines 133-136) is
`fs::write(path, json)`: it writes the serialized data to exactly the
path it is given. -/
structure RunOut where
  searched : List Document
  persisted : Option (PathBuf × List Document)
deriving DecidableEq

/-- The snapshot path `Path::new(&directory).join(".data.json")`
(src/main.rs line 45) for a directory written without a trailing
separator: `join` inserts the separator. -/
def json_name (directory : String) : String := directory ++ "/.data.json"

/-- src/main.rs `run` (lines 44-74), its cache logic. `snapshot` is the
deserialized content of the file at `json_name directory` when that file
exists (`none` = absent); a malformed file is outside this model (it
propagates a serde error). Panics are `none`: `data.get(0).unwrap()` on
an empty vector, and `last_modified.elapsed().unwrap()` when the
timestamp lies in the future. In the stale branch the code calls
`serialize_and_save(&saved_data, directory)` — the bare directory string;
in the absent branch it calls it with `directory + ".data.json"` (string
push, no separator). -/
def run (snapshot : Option (List Document)) (now : ℕ) (directory : String)
    (reader : PathBuf → List Char) (all_pdf_paths : List PathBuf) : Option RunOut :=
  match snapshot with
  | some data =>
      match data with
      | [] => none
      | d0 :: _ =>
          if now < d0.last_modified then none
          else if WEEK_IN_SECONDS < now - d0.last_modified then
            let saved_data := tokenize_data now reader all_pdf_paths
            some { searched := saved_data, persisted := some (directory, saved_data) }
          else
            some { searched := data, persisted := none }
  | none =>
      let data := tokenize_data now reader all_pdf_paths
      some { searched := data, persisted := some (directory ++ ".data.json", data) }

/-- Number of occurrences of a term in a token sequence. -/
def occCount (t : Term) : List Term → ℕ
  | [] => 0
  | s :: rest => (if s = t then 1 else 0) + occCount t rest

/-- First-occurrence filter of a document list by path, against a list of
already-seen paths: the sub-list of documents whose path has not appeared
before. Used to state what the query engine's path-dedup keeps. -/
def firstByPath : List Document → List PathBuf → List Document
  | [], _ => []
  | d :: rest, seen =>
      if seen.contains d.path then firstByPath rest seen
      else d :: firstByPath rest (d.path :: seen)

/-- The documents surviving the query engine's first-occurrence-per-path
dedup, in input order. -/
def distinctDocs (docs : List Document) : List Document := firstByPath docs []

/-
Helper lemmas about the indexer.
-/

theorem occCount_append (t : Term) :
    ∀ l₁ l₂ : List Term, occCount t (l₁ ++ l₂) = occCount t l₁ + occCount t l₂ := by
  intro l₁ l₂
  induction l₁ with
  | nil => simp [occCount]
  | cons s rest ih =>
      rw [List.cons_append]
      simp only [occCount]
      rw [ih]
      omega

theorem occCount_le_length (t : Term) : ∀ l : List Term, occCount t l ≤ l.length := by
  intro l
  induction l with
  | nil => simp [occCount]
  | cons s rest ih => simp only [occCount, List.length_cons]; split <;> omega

theorem occCount_pos_iff_mem (t : Term) : ∀ l : List Term, 0 < occCount t l ↔ t ∈ l := by
  intro l
  induction l with
  | nil => simp [occCount]
  | cons s rest ih =>
      simp only [occCount, List.mem_cons]
      by_cases h : s = t
      · simp [h]
      · have h' : ¬ t = s := fun hh => h hh.symm
        simp [h, h', ih]

theorem tfLookup_addToKey (t t' : Term) (v : F32) :
    ∀ data : TermFreq,
      tfLookup t' (addToKey t v data) =
        if t' = t then Option.map (fun w => F32.add w v) (tfLookup t data)
        else tfLookup t' data := by
  intro data
  induction data with
  | nil =>
      simp only [addToKey, tfLookup, Option.map_none']
      split <;> rfl
  | cons p rest ih =>
      obtain ⟨k, w⟩ := p
      by_cases hk : k = t
      · subst hk
        by_cases ht' : t' = k
        · subst ht'
          simp [addToKey, tfLookup]
        · have hk' : ¬ k = t' := fun h => ht' h.symm
          simp [addToKey, tfLookup, ht', hk']
      · by_cases ht' : k = t'
        · subst ht'
          simp [addToKey, tfLookup, hk]
        · simp [addToKey, tfLookup, hk, ht', ih]

theorem addToKey_keys (t : Term) (v : F32) :
    ∀ data : TermFreq, (addToKey t v data).map Prod.fst = data.map Prod.fst := by
  intro data
  induction data with
  | nil => rfl
  | cons p rest ih =>
      obtain ⟨k, w⟩ := p
      rw [addToKey]
      by_cases hk : k = t
      · rw [if_pos hk]
        simp only [List.map_cons]
      · rw [if_neg hk, List.map_cons, List.map_cons, ih]

theorem tfLookup_isSome_iff (t : Term) :
    ∀ data : TermFreq, (tfLookup t data).isSome = true ↔ t ∈ data.map Prod.fst := by
  intro data
  induction data with
  | nil => simp [tfLookup]
  | cons p rest ih =>
      obtain ⟨k, w⟩ := p
      by_cases hk : k = t
      · subst hk
        simp [tfLookup]
      · have hk' : ¬ t = k := fun h => hk h.symm
        rw [tfLookup, if_neg hk]
        simp only [List.map_cons, List.mem_cons]
        rw [ih]
        exact ⟨fun h => Or.inr h, fun h => h.elim (fun h1 => absurd h1 hk') id⟩

theorem indexLoop_lookup :
    ∀ (r : List Term) (n : ℕ) (p : List Term) (data : TermFreq),
      (∀ s, occCount s p + occCount s r ≤ n) →
      (∀ s, tfLookup s data =
        if occCount s p = 0 then none
        else some (F32.fin (1 + ((occCount s p : ℚ) - 1) / (n : ℚ)))) →
      ∀ t, tfLookup t (indexLoop n r data) =
        if occCount t (p ++ r) = 0 then none
        else some (F32.fin (1 + ((occCount t (p ++ r) : ℚ) - 1) / (n : ℚ))) := by
  intro r
  induction r with
  | nil =>
      intro n p data hle hdata t
      simpa [indexLoop, occCount_append, occCount] using hdata t
  | cons term rest ih =>
      intro n p data hle hdata t
      rw [indexLoop]
      by_cases hmem : (tfLookup term data).isSome = true
      · -- term already present in the accumulator
        have hcnt : occCount term p ≠ 0 := by
          intro h0
          rw [hdata term, if_pos h0] at hmem
          simp at hmem
        have hn : n ≠ 0 := by
          have h1 := hle term
          simp only [occCount, if_pos rfl] at h1
          omega
        rw [if_pos hmem]
        have hone : oneOverLen n = F32.fin (1 / (n : ℚ)) := by
          rw [oneOverLen, if_neg hn]
        have hle' : ∀ s, occCount s (p ++ [term]) + occCount s rest ≤ n := by
          intro s
          have hs0 := hle s
          have ha := occCount_append s p [term]
          have hb : occCount s (term :: rest) = occCount s [term] + occCount s rest := by
            simp only [occCount]
            omega
          omega
        have hdata' : ∀ s, tfLookup s (addToKey term (oneOverLen n) data) =
            if occCount s (p ++ [term]) = 0 then none
            else some (F32.fin (1 + ((occCount s (p ++ [term]) : ℚ) - 1) / (n : ℚ))) := by
          intro s
          rw [tfLookup_addToKey]
          by_cases hs : s = term
          · subst hs
            rw [if_pos rfl, hdata s, if_neg hcnt]
            have hocc : occCount s (p ++ [s]) = occCount s p + 1 := by
              rw [occCount_append]; simp [occCount]
            rw [hocc, if_neg (by omega)]
            simp only [Option.map_some', hone, F32.add]
            have hq : (1 : ℚ) + ((occCount s p : ℚ) - 1) / (n : ℚ) + 1 / (n : ℚ)
                = 1 + (((occCount s p + 1 : ℕ) : ℚ) - 1) / (n : ℚ) := by
              rw [add_assoc, div_add_div_same]
              push_cast
              ring_nf
            rw [hq]
          · have hocc : occCount s (p ++ [term]) = occCount s p := by
              rw [occCount_append]
              have : ¬ term = s := fun h => hs h.symm
              simp [occCount, this]
            rw [if_neg hs, hdata s, hocc]
        have ihh := ih n (p ++ [term]) _ hle' hdata' t
        rw [ihh, List.append_assoc]
        simp only [List.singleton_append]
      · -- term not yet present
        have hcnt : occCount term p = 0 := by
          by_contra h0
          rw [hdata term, if_neg h0] at hmem
          simp at hmem
        rw [if_neg hmem]
        have hle' : ∀ s, occCount s (p ++ [term]) + occCount s rest ≤ n := by
          intro s
          have hs0 := hle s
          have ha := occCount_append s p [term]
          have hb : occCount s (term :: rest) = occCount s [term] + occCount s rest := by
            simp only [occCount]
            omega
          omega
        have hdata' : ∀ s, tfLookup s ((term, F32.fin 1) :: data) =
            if occCount s (p ++ [term]) = 0 then none
            else some (F32.fin (1 + ((occCount s (p ++ [term]) : ℚ) - 1) / (n : ℚ))) := by
          intro s
          by_cases hs : s = term
          · subst hs
            have hocc : occCount s (p ++ [s]) = 1 := by
              rw [occCount_append]; simp [occCount, hcnt]
            simp only [tfLookup, if_pos rfl, hocc]
            norm_num
          · have hs' : ¬ term = s := fun h => hs h.symm
            have hocc : occCount s (p ++ [term]) = occCount s p := by
              rw [occCount_append]; simp [occCount, hs']
            simp only [tfLookup, if_neg hs', hocc]
            exact hdata s
        have ihh := ih n (p ++ [term]) _ hle' hdata' t
        rw [ihh, List.append_assoc]
        simp only [List.singleton_append]

theorem index_data_lookup (content : List Term) (t : Term) :
    tfLookup t (index_data content) =
      if occCount t content = 0 then none
      else some (F32.fin (1 + ((occCount t content : ℚ) - 1) / (content.length : ℚ))) := by
  have h := indexLoop_lookup content content.length [] []
    (fun s => by simpa [occCount] using occCount_le_length s content)
    (fun s => by simp [tfLookup, occCount])
    t
  simpa [index_data] using h

theorem indexLoop_keys_nodup :
    ∀ (r : List Term) (n : ℕ) (data : TermFreq),
      ((data.map Prod.fst).Nodup) → ((indexLoop n r data).map Prod.fst).Nodup := by
  intro r
  induction r with
  | nil => intro n data h; simpa [indexLoop] using h
  | cons term rest ih =>
      intro n data h
      rw [indexLoop]
      by_cases hmem : (tfLookup term data).isSome = true
      · rw [if_pos hmem]
        exact ih n _ (by rw [addToKey_keys]; exact h)
      · rw [if_neg hmem]
        refine ih n _ ?_
        simp only [List.map_cons, List.nodup_cons]
        refine ⟨?_, h⟩
        intro hmem'
        exact hmem ((tfLookup_isSome_iff term data).mpr hmem')

/-
Helper lemmas about the tokenizer.
-/

theorem splitAux_flatten :
    ∀ (s cur : List Char),
      (splitAux s cur).flatten = cur ++ s.filter (fun c => !(isDelim c)) := by
  intro s
  induction s with
  | nil => intro cur; simp [splitAux]
  | cons c cs ih =>
      intro cur
      rw [splitAux]
      by_cases hc : isDelim c
      · rw [if_pos hc]
        simp only [List.flatten_cons, ih, List.filter_cons, hc]
        simp
      · rw [if_neg hc]
        rw [ih]
        simp only [List.filter_cons]
        have : (!isDelim c) = true := by simp [hc]
        rw [this]
        simp

theorem flatten_filter_nonempty :
    ∀ l : List (List Char), (l.filter (fun w => !w.isEmpty)).flatten = l.flatten := by
  intro l
  induction l with
  | nil => rfl
  | cons w rest ih =>
      by_cases hw : w.isEmpty
      · have he : w = [] := by
          cases w with
          | nil => rfl
          | cons a as => simp [List.isEmpty] at hw
        subst he
        simp [List.filter_cons, ih]
      · simp [List.filter_cons, hw, ih]

theorem splitAux_clean :
    ∀ (s cur : List Char),
      (∀ c ∈ cur, isDelim c = false) →
      ∀ t ∈ splitAux s cur, ∀ c ∈ t, isDelim c = false := by
  intro s
  induction s with
  | nil =>
      intro cur hcur t ht
      simp only [splitAux, List.mem_singleton] at ht
      subst ht
      exact hcur
  | cons c cs ih =>
      intro cur hcur t ht
      rw [splitAux] at ht
      by_cases hc : isDelim c
      · rw [if_pos hc] at ht
        rcases List.mem_cons.mp ht with h | h
        · subst h; exact hcur
        · exact ih [] (by simp) t h
      · rw [if_neg hc] at ht
        refine ih (cur ++ [c]) ?_ t ht
        intro d hd
        rcases List.mem_append.mp hd with h | h
        · exact hcur d h
        · rw [List.mem_singleton] at h
          subst h
          simpa using hc

/-
Helper lemmas about the query engine.
-/

theorem dfLookup_mem (p : PathBuf) :
    ∀ (l : DocFreq) (m : TermFreq), dfLookup p l = some m → (p, m) ∈ l := by
  intro l
  induction l with
  | nil => intro m h; simp [dfLookup] at h
  | cons kv rest ih =>
      obtain ⟨k, v⟩ := kv
      intro m h
      rw [dfLookup] at h
      by_cases hk : k = p
      · rw [if_pos hk] at h
        have hv : v = m := Option.some.inj h
        subst hv
        subst hk
        exact List.mem_cons_self _ _
      · rw [if_neg hk] at h
        exact List.mem_cons_of_mem _ (ih m h)

theorem insertIdf_perm (x : Idf) : ∀ l : List Idf, List.Perm (insertIdf x l) (x :: l) := by
  intro l
  induction l with
  | nil => exact List.Perm.refl _
  | cons e es ih =>
      rw [insertIdf]
      by_cases h : F32.blt e.tf x.tf = true
      · rw [if_pos h]
      · rw [if_neg h]
        exact List.Perm.trans (List.Perm.cons e ih) (List.Perm.swap x e es)

theorem foldl_insertIdf_perm :
    ∀ (l acc : List Idf), List.Perm (l.foldl (fun a x => insertIdf x a) acc) (acc ++ l) := by
  intro l
  induction l with
  | nil => intro acc; simp
  | cons x rest ih =>
      intro acc
      rw [List.foldl_cons]
      refine List.Perm.trans (ih (insertIdf x acc)) ?_
      refine List.Perm.trans ((insertIdf_perm x acc).append_right rest) ?_
      exact List.perm_middle.symm

theorem sortByTfDesc_perm (l : List Idf) : List.Perm (sortByTfDesc l) l := by
  simpa using foldl_insertIdf_perm l []

theorem blt_irrefl (c : F32) : F32.blt c c = false := by
  cases c <;> simp [F32.blt]

theorem insertIdf_const {c : F32} (x : Idf) :
    ∀ acc : List Idf, (∀ e ∈ acc, e.tf = c) → x.tf = c → insertIdf x acc = acc ++ [x] := by
  intro acc
  induction acc with
  | nil => intro _ _; rfl
  | cons e es ih =>
      intro hacc hx
      rw [insertIdf]
      have he : e.tf = c := hacc e (List.mem_cons_self e es)
      have : F32.blt e.tf x.tf = false := by rw [he, hx]; exact blt_irrefl c
      rw [this]
      simp only [Bool.false_eq_true, if_false, List.cons_append, List.cons.injEq, true_and]
      exact ih (fun d hd => hacc d (List.mem_cons_of_mem e hd)) hx

theorem sortByTfDesc_const {c : F32} :
    ∀ l acc : List Idf, (∀ e ∈ acc ++ l, e.tf = c) →
      l.foldl (fun a x => insertIdf x a) acc = acc ++ l := by
  intro l
  induction l with
  | nil => intro acc _; simp
  | cons x rest ih =>
      intro acc h
      rw [List.foldl_cons]
      have hx : x.tf = c := h x (by simp)
      have hacc : ∀ e ∈ acc, e.tf = c := fun e he => h e (List.mem_append_left _ he)
      rw [insertIdf_const x acc hacc hx]
      have : (acc ++ [x]) ++ rest = acc ++ x :: rest := by simp
      rw [← this] at h ⊢
      exact ih (acc ++ [x]) h

theorem sortByTfDesc_of_const {c : F32} (l : List Idf) (h : ∀ e ∈ l, e.tf = c) :
    sortByTfDesc l = l := by
  have := sortByTfDesc_const (c := c) l [] (by simpa using h)
  simpa [sortByTfDesc] using this

theorem containsPath_append (p : PathBuf) :
    ∀ a b : List Idf, containsPath (a ++ b) p = (containsPath a p || containsPath b p) := by
  intro a b
  induction a with
  | nil => simp [containsPath]
  | cons e es ih =>
      rw [List.cons_append, containsPath, containsPath]
      by_cases h : e.path = p
      · rw [if_pos h, if_pos h]
        simp
      · rw [if_neg h, if_neg h, ih]

theorem collectLoop_zero (q : Term) :
    ∀ (docs : List Document) (buff : List Idf) (seen : List PathBuf),
      (∀ d ∈ docs, rawScore d q = F32.fin 0) →
      (∀ p, containsPath buff p = seen.contains p) →
      collectLoop q docs buff
        = buff ++ (firstByPath docs seen).map (fun d => Idf.mk d.path (F32.fin 0)) := by
  intro docs
  induction docs with
  | nil => intro buff seen _ _; simp [collectLoop, firstByPath]
  | cons d rest ih =>
      intro buff seen hzero hrel
      rw [collectLoop, firstByPath, hrel d.path]
      by_cases hseen : seen.contains d.path = true
      · rw [if_pos hseen, if_pos hseen]
        exact ih buff seen (fun x hx => hzero x (List.mem_cons_of_mem d hx)) hrel
      · rw [if_neg hseen, if_neg hseen]
        have hz : rawScore d q = F32.fin 0 := hzero d (List.mem_cons_self d rest)
        rw [hz]
        have hrel' : ∀ p, containsPath (buff ++ [Idf.mk d.path (F32.fin 0)]) p
            = (d.path :: seen).contains p := by
          intro p
          rw [containsPath_append, hrel p]
          simp only [containsPath]
          by_cases hp : d.path = p
          · subst hp
            simp
          · have hp2 : ¬ p = d.path := fun h => hp h.symm
            simp only [if_neg hp, List.contains_cons]
            simp [hp2]
        rw [ih (buff ++ [Idf.mk d.path (F32.fin 0)]) (d.path :: seen)
          (fun x hx => hzero x (List.mem_cons_of_mem d hx)) hrel']
        simp

theorem collectLoop_mem (q : Term) :
    ∀ (docs : List Document) (buff : List Idf),
      ∀ e ∈ collectLoop q docs buff,
        e ∈ buff ∨ ∃ d ∈ docs, e.path = d.path ∧ e.tf = rawScore d q := by
  intro docs
  induction docs with
  | nil => intro buff e he; exact Or.inl he
  | cons d rest ih =>
      intro buff e he
      rw [collectLoop] at he
      by_cases hc : containsPath buff d.path = true
      · rw [if_pos hc] at he
        rcases ih buff e he with h | ⟨d', hd', h1, h2⟩
        · exact Or.inl h
        · exact Or.inr ⟨d', List.mem_cons_of_mem d hd', h1, h2⟩
      · rw [if_neg hc] at he
        rcases ih (buff ++ [Idf.mk d.path (rawScore d q)]) e he with h | ⟨d', hd', h1, h2⟩
        · rcases List.mem_append.mp h with h' | h'
          · exact Or.inl h'
          · rw [List.mem_singleton] at h'
            subst h'
            exact Or.inr ⟨d, List.mem_cons_self d rest, rfl, rfl⟩
        · exact Or.inr ⟨d', List.mem_cons_of_mem d hd', h1, h2⟩

/-
The claims.
-/

/-- C1, counterexample. The claim says that with document A first and
document B second, B's reported score is s_B divided by s_A and A's
reported score is 1.0 whenever s_A is non-zero. On the code, with raw
scores s_A = 2 and s_B = 1, `search_query` reports B's score as its raw
score 1 (not 1/2) and A's score as 2 (not 1.0, although s_A is non-zero):
the code performs no normalization at all. -/
theorem c1_counterexample :
    search_query
      [ { data := [("a.pdf", [("apple".toList, F32.fin 2)])], path := "a.pdf", last_modified := 0 },
        { data := [("b.pdf", [("apple".toList, F32.fin 1)])], path := "b.pdf", last_modified := 0 } ]
      "apple".toList
    = some [Idf.mk "a.pdf" (F32.fin 2), Idf.mk "b.pdf" (F32.fin 1)]
    ∧ F32.fin 1 ≠ F32.fin (1 / 2)
    ∧ F32.fin 2 ≠ F32.fin 1
    ∧ F32.fin 2 ≠ F32.fin 0 :=
  ⟨by decide,
   by simp only [ne_eq, F32.fin.injEq]; norm_num,
   by decide,
   by decide⟩

/-- C1, amended. In `search_query` every document's reported score equals
its own raw term-frequency score for the query — there is no division by
the first document's raw score. For A earlier in the input than B (with
distinct paths, scores not NaN), the result contains the entry
(A.path, s_A) and the entry (B.path, s_B), and any result entry carrying
one of these paths carries exactly that document's raw score. -/
theorem c1_amended (A B : Document) (q : Term) (hpath : A.path ≠ B.path)
    (hA : (rawScore A q).isNan = false) (hB : (rawScore B q).isNan = false) :
    ∃ l, search_query [A, B] q = some l
      ∧ Idf.mk A.path (rawScore A q) ∈ l
      ∧ Idf.mk B.path (rawScore B q) ∈ l
      ∧ ∀ e ∈ l, (e.path = A.path → e.tf = rawScore A q)
               ∧ (e.path = B.path → e.tf = rawScore B q) := by
  have hbuff : collectLoop q [A, B] []
      = [Idf.mk A.path (rawScore A q), Idf.mk B.path (rawScore B q)] := by
    simp [collectLoop, containsPath, hpath]
  have hany : (collectLoop q [A, B] []).any (fun e => e.tf.isNan) = false := by
    rw [hbuff]
    simp [hA, hB]
  refine ⟨sortByTfDesc (collectLoop q [A, B] []), ?_, ?_, ?_, ?_⟩
  · rw [search_query]
    simp only [hany, Bool.false_eq_true, and_false, if_false]
  · rw [hbuff]
    exact ((sortByTfDesc_perm _).mem_iff).mpr (by simp)
  · rw [hbuff]
    exact ((sortByTfDesc_perm _).mem_iff).mpr (by simp)
  · intro e he
    have he2 : e ∈ collectLoop q [A, B] [] := (sortByTfDesc_perm _).mem_iff.mp he
    rw [hbuff] at he2
    rcases List.mem_cons.mp he2 with h | h
    · subst h
      refine ⟨fun _ => rfl, fun hb => absurd hb hpath⟩
    · rw [List.mem_singleton] at h
      subst h
      refine ⟨fun ha => absurd ha.symm hpath, fun _ => rfl⟩

/-- C1 witness: the amended statement applied to two concrete documents
with raw scores 2 and 1. -/
theorem c1_amended_witness :
    ∃ l, search_query
        [ { data := [("a.pdf", [("apple".toList, F32.fin 2)])], path := "a.pdf",
            last_modified := 0 },
          { data := [("b.pdf", [("apple".toList, F32.fin 1)])], path := "b.pdf",
            last_modified := 0 } ]
        "apple".toList = some l
      ∧ Idf.mk "a.pdf" (F32.fin 2) ∈ l
      ∧ Idf.mk "b.pdf" (F32.fin 1) ∈ l := by
  obtain ⟨l, h1, h2, h3, _⟩ := c1_amended
    { data := [("a.pdf", [("apple".toList, F32.fin 2)])], path := "a.pdf", last_modified := 0 }
    { data := [("b.pdf", [("apple".toList, F32.fin 1)])], path := "b.pdf", last_modified := 0 }
    "apple".toList (by decide) (by decide) (by decide)
  exact ⟨l, h1, h2, h3⟩

/-- C2: for a non-empty token sequence, `index_data` produces a mapping in
which every distinct term of the input appears as a key exactly once; a
term occurring exactly once maps to exactly 1.0, and a term occurring
k > 1 times in n total tokens maps to 1 + (k - 1) / n. -/
theorem c2_index_scores (content : List Term) (hne : content ≠ []) (t : Term) :
    ((index_data content).map Prod.fst).Nodup
    ∧ (t ∈ (index_data content).map Prod.fst ↔ t ∈ content)
    ∧ (occCount t content = 1 → tfLookup t (index_data content) = some (F32.fin 1))
    ∧ (∀ k : ℕ, occCount t content = k → 1 < k →
        tfLookup t (index_data content) =
          some (F32.fin (1 + ((k : ℚ) - 1) / (content.length : ℚ)))) := by
  refine ⟨?_, ?_, ?_, ?_⟩
  · exact indexLoop_keys_nodup content content.length [] (by simp)
  · rw [← tfLookup_isSome_iff, index_data_lookup]
    by_cases h : occCount t content = 0
    · rw [if_pos h]
      simp only [Option.isSome_none, Bool.false_eq_true, false_iff]
      intro hmem
      have := (occCount_pos_iff_mem t content).mpr hmem
      omega
    · rw [if_neg h]
      simp only [Option.isSome_some, true_iff]
      exact (occCount_pos_iff_mem t content).mp (by omega)
  · intro h1
    rw [index_data_lookup, if_neg (by omega), h1]
    norm_num
  · intro k hk hk1
    rw [index_data_lookup, if_neg (by omega), hk]

/-- C2 witness: indexing the tokens [apple, banana, apple] gives apple the
score 1 + (2 - 1) / 3. -/
theorem c2_witness :
    tfLookup "apple".toList
        (index_data ["apple".toList, "banana".toList, "apple".toList])
      = some (F32.fin (1 + ((2 : ℚ) - 1) / ((3 : ℕ) : ℚ))) := by
  have h := (c2_index_scores ["apple".toList, "banana".toList, "apple".toList]
    (by decide) "apple".toList).2.2.2 2 (by decide) (by norm_num)
  exact h

/-- C3: with no snapshot the code builds one Document per candidate path
and returns the built sequence, but it persists the snapshot at
`directory + ".data.json"` (string concatenation, no path separator)
instead of `<directory>/.data.json` — the path that the existence check
reads — so for the directory "data" the snapshot is written to
"data.data.json", a different file than "data/.data.json". -/
theorem c3_absent_builds_but_saves_elsewhere :
    run none 1000 "data" (fun _ => []) ["data/a.pdf"]
      = some { searched :=
                 [{ data := [("data/a.pdf", [])], path := "data/a.pdf", last_modified := 1000 }],
               persisted := some ("data.data.json",
                 [{ data := [("data/a.pdf", [])], path := "data/a.pdf", last_modified := 1000 }]) }
    ∧ "data.data.json" ≠ json_name "data" :=
  ⟨by decide, by decide⟩

/-- C4: with a stale snapshot the code rebuilds every candidate path from
scratch (ignoring the stale content), but it hands `serialize_and_save`
the bare directory string "data" — not the snapshot path
"data/.data.json" — so the new sequence is written to the directory path
itself (which fails on a real file system and aborts via expect). -/
theorem c4_stale_rebuilds_but_saves_to_directory :
    run (some [{ data := [], path := "old.pdf", last_modified := 0 }]) 700000 "data"
        (fun _ => []) ["data/a.pdf"]
      = some { searched :=
                 [{ data := [("data/a.pdf", [])], path := "data/a.pdf", last_modified := 700000 }],
               persisted := some ("data",
                 [{ data := [("data/a.pdf", [])], path := "data/a.pdf", last_modified := 700000 }]) }
    ∧ "data" ≠ json_name "data"
    ∧ ([{ data := [], path := "old.pdf", last_modified := 0 }] : List Document)
        ≠ [{ data := [("data/a.pdf", [])], path := "data/a.pdf", last_modified := 700000 }] :=
  ⟨by decide, by decide, by decide⟩

/-- C5: with a fresh snapshot (first entry's age within 604800 seconds)
`run` returns the deserialized snapshot verbatim, performs no save, and
the result does not depend on the candidate-path list at all. -/
theorem c5_fresh_verbatim (data : List Document) (d0 : Document) (rest : List Document)
    (now : ℕ) (directory : String) (reader : PathBuf → List Char)
    (paths paths' : List PathBuf)
    (hdata : data = d0 :: rest)
    (hpast : d0.last_modified ≤ now)
    (hfresh : now - d0.last_modified ≤ WEEK_IN_SECONDS) :
    run (some data) now directory reader paths = some { searched := data, persisted := none }
    ∧ run (some data) now directory reader paths
        = run (some data) now directory reader paths' := by
  subst hdata
  have h1 : ¬ now < d0.last_modified := by omega
  have h2 : ¬ WEEK_IN_SECONDS < now - d0.last_modified := by omega
  constructor
  · rw [run]
    rw [if_neg h1, if_neg h2]
  · rw [run, run]
    rw [if_neg h1, if_neg h2, if_neg h1, if_neg h2]

/-- C5 witness: a one-entry snapshot aged 100 seconds is returned
verbatim, with the same result for two different candidate-path lists. -/
theorem c5_witness :
    run (some [{ data := [], path := "a.pdf", last_modified := 100 }]) 200 "data"
        (fun _ => []) ["x.pdf"]
      = some { searched := [{ data := [], path := "a.pdf", last_modified := 100 }],
               persisted := none }
    ∧ run (some [{ data := [], path := "a.pdf", last_modified := 100 }]) 200 "data"
        (fun _ => []) ["x.pdf"]
      = run (some [{ data := [], path := "a.pdf", last_modified := 100 }]) 200 "data"
          (fun _ => []) [] :=
  c5_fresh_verbatim [{ data := [], path := "a.pdf", last_modified := 100 }]
    { data := [], path := "a.pdf", last_modified := 100 } [] 200 "data"
    (fun _ => []) ["x.pdf"] [] rfl (by decide) (by decide)

/-- C6, counterexample. The claim says any not-a-number or infinite score
in the query engine is silently normalized to 0.0 and ranked last. On the
code, a document whose stored score for the query is positive infinity is
reported unchanged (its score stays infinite, not 0.0) and is ranked
FIRST by the descending sort, not last. -/
theorem c6_counterexample :
    search_query
      [ { data := [("a.pdf", [("q".toList, F32.inf)])], path := "a.pdf", last_modified := 0 },
        { data := [("b.pdf", [("q".toList, F32.fin 1)])], path := "b.pdf", last_modified := 0 } ]
      "q".toList
    = some [Idf.mk "a.pdf" F32.inf, Idf.mk "b.pdf" (F32.fin 1)]
    ∧ F32.inf ≠ F32.fin 0 :=
  ⟨by decide, by decide⟩

/-- C6, amended. The query engine performs no division, so no numeric
degeneracy can arise inside it; every reported score is exactly some
input document's raw score for the query (the stored value, or the 0.0
default when the term is absent) — nothing is normalized to 0.0. -/
theorem c6_amended_passthrough (docs : List Document) (q : Term) (l : List Idf)
    (h : search_query docs q = some l) :
    ∀ e ∈ l, ∃ d ∈ docs, e.path = d.path ∧ e.tf = rawScore d q := by
  intro e he
  have hl : l = sortByTfDesc (collectLoop q docs []) := by
    rw [search_query] at h
    by_cases hc : 2 ≤ (collectLoop q docs []).length
        ∧ (collectLoop q docs []).any (fun e => e.tf.isNan) = true
    · rw [if_pos hc] at h
      exact absurd h (by simp)
    · rw [if_neg hc] at h
      exact (Option.some.inj h).symm
  rw [hl] at he
  have he2 : e ∈ collectLoop q docs [] := (sortByTfDesc_perm _).mem_iff.mp he
  rcases collectLoop_mem q docs [] e he2 with h0 | ⟨d, hd, h1, h2⟩
  · simp at h0
  · exact ⟨d, hd, h1, h2⟩

/-- C6 witness: for a single concrete document the reported score is that
document's raw score. -/
theorem c6_amended_witness :
    ∃ d ∈ [({ data := [("c.pdf", [("t".toList, F32.fin 7)])], path := "c.pdf",
              last_modified := 0 } : Document)],
      ("c.pdf" : PathBuf) = d.path ∧ F32.fin 7 = rawScore d "t".toList :=
  c6_amended_passthrough
    [ { data := [("c.pdf", [("t".toList, F32.fin 7)])], path := "c.pdf", last_modified := 0 } ]
    "t".toList [Idf.mk "c.pdf" (F32.fin 7)] (by decide)
    (Idf.mk "c.pdf" (F32.fin 7)) (by decide)

/-- C7: `split_into_words` lowercases the whole input, splits it on the
delimiter characters and discards empty fragments, preserving
left-to-right order: the concatenation of the output tokens equals the
lowercased input with all delimiter characters removed, no output token
is empty or contains a delimiter character, and the empty input yields an
empty token sequence. -/
theorem c7_tokenizer (input : List Char) :
    (split_into_words input).flatten
        = (input.map Char.toLower).filter (fun c => !(isDelim c))
    ∧ (∀ t ∈ split_into_words input, t.isEmpty = false ∧ ∀ c ∈ t, isDelim c = false)
    ∧ split_into_words [] = ([] : List (List Char)) := by
  refine ⟨?_, ?_, by decide⟩
  · rw [split_into_words, flatten_filter_nonempty, splitAux_flatten]
    simp
  · intro t ht
    rw [split_into_words] at ht
    have hmem := List.mem_filter.mp ht
    refine ⟨by simpa using hmem.2, ?_⟩
    exact splitAux_clean (input.map Char.toLower) [] (by simp) t hmem.1

/-- C7 witness: the tokenizer statement applied to a concrete input and
to the empty input. -/
theorem c7_witness :
    (split_into_words "Hello, World!".toList).flatten
        = ("Hello, World!".toList.map Char.toLower).filter (fun c => !(isDelim c))
    ∧ split_into_words [] = ([] : List (List Char)) :=
  ⟨(c7_tokenizer "Hello, World!".toList).1, (c7_tokenizer []).2.2⟩

/-- C8: when the query term occurs in no document's term-frequency
mapping, `search_query` returns one result per distinct document path,
every score is 0.0, and the output order is the original document order
(the first document with each path, in input order — the stable sort
moves nothing when all keys are equal). -/
theorem c8_no_match (docs : List Document) (q : Term)
    (hnone : ∀ d ∈ docs, ∀ pr ∈ d.data, tfLookup q pr.2 = none) :
    search_query docs q
      = some ((distinctDocs docs).map fun d => Idf.mk d.path (F32.fin 0)) := by
  have hzero : ∀ d ∈ docs, rawScore d q = F32.fin 0 := by
    intro d hd
    cases hdf : dfLookup d.path d.data with
    | none => simp [rawScore, hdf]
    | some m =>
        have hm : (d.path, m) ∈ d.data := dfLookup_mem d.path d.data m hdf
        have hq := hnone d hd (d.path, m) hm
        simp [rawScore, hdf, hq]
  have hbuff := collectLoop_zero q docs [] [] hzero (by intro p; rfl)
  rw [List.nil_append] at hbuff
  have hall : ∀ e ∈ collectLoop q docs [], e.tf = F32.fin 0 := by
    intro e he
    rw [hbuff] at he
    obtain ⟨d, _, rfl⟩ := List.mem_map.mp he
    rfl
  have hany : (collectLoop q docs []).any (fun e => e.tf.isNan) = false := by
    rw [List.any_eq_false]
    intro e he
    rw [hall e he]
    simp [F32.isNan]
  rw [search_query]
  simp only [hany, Bool.false_eq_true, and_false, if_false]
  rw [sortByTfDesc_of_const (c := F32.fin 0) _ hall, hbuff, distinctDocs]

/-- C8 witness: a query matching nothing in two concrete documents yields
both paths in input order, each with score 0.0. -/
theorem c8_witness :
    search_query
      [ { data := [("a.pdf", [("x".toList, F32.fin 5)])], path := "a.pdf", last_modified := 0 },
        { data := [("b.pdf", [])], path := "b.pdf", last_modified := 0 } ]
      "zz".toList
    = some [Idf.mk "a.pdf" (F32.fin 0), Idf.mk "b.pdf" (F32.fin 0)] := by
  rw [c8_no_match _ _ (by decide)]
  decide

/-- C9: indexing the empty token sequence yields the empty mapping, and
no division by zero is reachable in the indexer: every stored value is a
finite rational at least 1 (were the 1.0 / n division ever executed with
n = 0, the IEEE result +inf would appear among the stored values). -/
theorem c9_indexer_safe :
    index_data [] = [] ∧
    ∀ (content : List Term) (t : Term),
      tfLookup t (index_data content) = none ∨
      ∃ q : ℚ, 1 ≤ q ∧ tfLookup t (index_data content) = some (F32.fin q) := by
  refine ⟨rfl, ?_⟩
  intro content t
  rw [index_data_lookup]
  by_cases h : occCount t content = 0
  · left
    rw [if_pos h]
  · right
    refine ⟨1 + ((occCount t content : ℚ) - 1) / (content.length : ℚ), ?_, by rw [if_neg h]⟩
    have h1 : (1 : ℚ) ≤ (occCount t content : ℚ) := by
      have : 1 ≤ occCount t content := by omega
      exact_mod_cast this
    have h2 : (0 : ℚ) ≤ ((occCount t content : ℚ) - 1) / (content.length : ℚ) :=
      div_nonneg (by linarith) (by positivity)
    linarith

/-- C9 witness: the statement applied to the empty input and to a
concrete one-token input. -/
theorem c9_witness :
    index_data [] = [] ∧
    (tfLookup "a".toList (index_data ["b".toList]) = none ∨
      ∃ q : ℚ, 1 ≤ q ∧ tfLookup "a".toList (index_data ["b".toList]) = some (F32.fin q)) :=
  ⟨c9_indexer_safe.1, c9_indexer_safe.2 ["b".toList] "a".toList⟩

/-- C10: when the snapshot file exists and deserializes to the empty
sequence, `run` panics on `data.get(0).unwrap()` before the staleness
check — modelled as the result `none` — for every time, directory,
reader and candidate-path list. -/
theorem c10_empty_snapshot_panics :
    ∀ (now : ℕ) (directory : String) (reader : PathBuf → List Char)
      (paths : List PathBuf),
      run (some []) now directory reader paths = none := by
  intro now directory reader paths
  rfl

/-- C10 witness: the empty-snapshot panic at concrete arguments. -/
theorem c10_witness :
    run (some []) 42 "data" (fun _ => []) ["a.pdf"] = none :=
  c10_empty_snapshot_panics 42 "data" (fun _ => []) ["a.pdf"]

end TfIdf
